import Mathlib

/-!
Verification of the duplicate-detection engine of the flat media browser.

The embedded code comes from `src/image_browser/core/phash.py`,
`src/image_browser/core/duplicates.py` and `src/image_browser/core/utils.py`.

Modelling conventions:
* Greyscale pixel data is a row-major grid of rational intensities
  (`Grey`).  The claims settled here depend only on comparisons between
  intensities and on how bits are packed, never on float rounding, so
  rationals are an exact stand-in for the float32 arrays of the source.
* A PIL image is abstracted as a `Resizable`: the function that, for a
  requested `(width, height)`, yields the greyscale, orientation-corrected,
  resized pixel grid (`_to_grey` composed with the image).  `WellSized`
  states the library guarantee that resizing returns the requested shape.
* The 2-D DCT primitive of scipy is an abstract parameter `dct2d`, and the
  `HAS_DCT` capability flag is an explicit boolean parameter.
* The thread pool delivers results in completion order; both dispatcher
  loops of `duplicates.py` consume them sequentially via `as_completed`.
  The model therefore takes the per-item work results as a list in
  completion order, and the cooperative cancellation token is modelled by
  the index of the loop-level check from which `is_set()` is observed
  true (`cancelFrom`, `none` meaning the token is never set).
* The progress queue `q` is modelled as the list of messages put on it
  (the `q is None` guard only suppresses delivery and changes nothing
  else, so the model always records the messages).
-/

namespace MediaBrowser

/-! ## Perceptual hash library (`phash.py`) -/

/-- Row-major greyscale pixel grid, as produced by `np.asarray` on a PIL
image of width `w` and height `h`: `h` rows of length `w`. -/
abbrev Grey := List (List ℚ)

/-- A decoded image, abstracted as its response to `_to_grey`'s
convert-and-resize for each requested `(width, height)`. -/
abbrev Resizable := Nat × Nat → Grey

/-- The PIL guarantee used by every hash: resizing to `(w, h)` yields
`h` rows of length `w`. -/
def WellSized (im : Resizable) : Prop :=
  ∀ w h : Nat, (im (w, h)).length = h ∧ ∀ row ∈ im (w, h), row.length = w

/-- Model of `_to_grey(im, (w, h))`: EXIF transpose, greyscale conversion
and LANCZOS resampling are inside the abstract `Resizable`. -/
def to_grey (im : Resizable) (w h : Nat) : Grey := im (w, h)

/-- The bit-packing loop shared by the three hashes:
`val = 0; for b in bits: val = (val << 1) | int(b)`.
Since the lowest bit of `val << 1` is clear, the step equals
`2 * val + b`. -/
def packBits (bits : List Bool) : Nat :=
  bits.foldl (fun v b => 2 * v + (if b then 1 else 0)) 0

/-- Number of pixels of a grid (the denominator of `arr.mean()`). -/
def cellCount (g : Grey) : Nat := (g.map List.length).sum

/-- Model of `arr.mean()`: the sum of all entries divided by their
count. -/
def meanQ (g : Grey) : ℚ := (g.map List.sum).sum / (cellCount g : ℚ)

/-- Model of `ahash(im, size)`: resize to `size × size`, emit one bit per
pixel (`1` iff the pixel is strictly above the mean), packed row-major. -/
def ahash (im : Resizable) (size : Nat) : Nat :=
  let arr := to_grey im size size
  packBits (arr.flatten.map (fun x => decide (meanQ arr < x)))

/-- One row of `arr[:,1:] > arr[:,:-1]`: element `j` compares the pixel in
column `j+1` against the pixel in column `j`. -/
def rowDiffBits (row : List ℚ) : List Bool :=
  (row.zip row.tail).map (fun p => decide (p.1 < p.2))

/-- Model of `dhash(im, size)`: resize to width `size+1`, height `size`
(`arr` has `size` rows of length `size+1`), emit the bit
`arr[i][j+1] > arr[i][j]` for each adjacent horizontal pair, row-major. -/
def dhash (im : Resizable) (size : Nat) : Nat :=
  let arr := to_grey im (size + 1) size
  packBits ((arr.map rowDiffBits).flatten)

/-- Model of `dct_full[:reduced, :reduced]`. -/
def truncateGrid (r : Nat) (g : Grey) : Grey := (g.take r).map (List.take r)

/-- Model of `phash(im, size, reduced)`.  Raising `RuntimeError` when the
DCT primitive is missing is modelled by `Except.error`; `dct2d` is the
composition of the two axis-wise `scipy.fftpack.dct` applications. -/
def phash (hasDCT : Bool) (dct2d : Grey → Grey) (im : Resizable)
    (size reduced : Nat) : Except String Nat :=
  if !hasDCT then
    .error "pHash requires SciPy (scipy.fftpack.dct). Install scipy or use aHash/dHash."
  else
    let dct_low := truncateGrid reduced (dct2d (to_grey im size size))
    .ok (packBits (dct_low.flatten.map (fun x => decide (meanQ dct_low < x))))

/-- Fuel-indexed binary population count (structural, so that the kernel
can evaluate it). -/
def popCountAux : Nat → Nat → Nat
  | 0, _ => 0
  | fuel + 1, n => if n = 0 then 0 else n % 2 + popCountAux fuel (n / 2)

/-- Model of `int.bit_count()`: the number of ones in the binary
representation. -/
def popCount (n : Nat) : Nat := popCountAux n n

/-- Model of `hamming(a, b) = (a ^ b).bit_count()`. -/
def hamming (a b : Nat) : Nat := popCount (a ^^^ b)

/-! ## Progress queue messages (`duplicates.py`) -/

/-- Messages put on the progress queue by the engine.  `progress` models
`{"type": "manage_progress", ...}` and `doneSig` models
`{"type": "manage_done", "found": n}`.  The `cancelledSig` constructor is
the spec's vocabulary for a distinguished "cancelled" terminal signal; the
source never emits it, and it is needed to state claims about it. -/
inductive Signal where
  | progress (done total : Nat) (phase : String)
  | doneSig (found : Nat)
  | cancelledSig
deriving DecidableEq, Repr

/-- Terminal signals in the sense of the spec: normal completion or
cancellation (progress events are not terminal). -/
def isTerminal : Signal → Bool
  | .progress _ _ _ => false
  | .doneSig _ => true
  | .cancelledSig => true

/-- Project the queue content onto its progress events, as
`(done, total, phase)` triples. -/
def progressList (sigs : List Signal) : List (Nat × Nat × String) :=
  sigs.filterMap (fun s =>
    match s with
    | .progress d t ph => some (d, t, ph)
    | _ => none)

/-- The cancellation token, modelled by the loop-level check index from
which `cancel_event.is_set()` is observed `True` (a `threading.Event` is
never cleared during a run, hence the monotone shape). -/
def isCancelled (cancelFrom : Option Nat) (step : Nat) : Bool :=
  match cancelFrom with
  | none => false
  | some c => c ≤ step

/-! ## The dispatcher loop shared by both engine entry points

Both `compute_sha1_map` and `compute_perceptual_groups` run the same
`as_completed` consumption loop: check the token, count the completion,
put a progress message after every 50th completion and on the final one,
then fold the completed result into the accumulated state. -/

/-- The `for fut in as_completed(futs)` loop.  `rs` is the stream of
per-item work results in completion order, `done` the completions counted
so far, `st` the accumulated state and `evs` the queue content so far. -/
def dispatchLoop {α σ : Type} (phase : String) (total : Nat)
    (cancelFrom : Option Nat) (handle : Option α → σ → σ) :
    List (Option α) → Nat → σ → List Signal → σ × List Signal
  | [], _, st, evs => (st, evs)
  | r :: rest, done, st, evs =>
    if isCancelled cancelFrom done then (st, evs)
    else
      let d := done + 1
      let evs1 := if d % 50 == 0 || d == total
        then evs ++ [Signal.progress d total phase] else evs
      dispatchLoop phase total cancelFrom handle rest d (handle r st) evs1

/-! ## Exact grouping (`compute_sha1_map`) -/

/-- Model of `groups[h].append(path)` on the insertion-ordered
`defaultdict(list)`: append to the entry of key `h`, or add a new entry at
the end. -/
def insertGroup : List (String × List String) → String → String →
    List (String × List String)
  | [], h, p => [(h, [p])]
  | (k, v) :: rest, h, p =>
    if k = h then (k, v ++ [p]) :: rest else (k, v) :: insertGroup rest h p

/-- The per-result action of the `compute_sha1_map` loop body: a `None`
work result is skipped, an empty digest is skipped, otherwise the path is
appended to its digest's group. -/
def sha1Handle (r : Option (String × String)) (gs : List (String × List String)) :
    List (String × List String) :=
  match r with
  | some (h, p) => if h ≠ "" then insertGroup gs h p else gs
  | none => gs

/-- Model of `compute_sha1_map`.  `results` is the stream of `work(p)`
outcomes in completion order: `none` for a worker that saw the token set
or hit an exception, otherwise `(digest, resolved path)` where the digest
is `""` when `sha1_of_file` was cancelled mid-read.  Returns the filtered
group mapping and the queue content. -/
def compute_sha1_map (results : List (Option (String × String)))
    (cancelFrom : Option Nat) : List (String × List String) × List Signal :=
  let total := results.length
  let (gs, evs) := dispatchLoop "sha1" total cancelFrom sha1Handle results 0 [] []
  let out := gs.filter (fun kv => decide (1 < kv.2.length) && decide (kv.1 ≠ ""))
  (out, evs ++ [Signal.doneSig ((out.map (fun kv => kv.2.length)).sum)])

/-- The paths of all completed results carrying digest `d`, in completion
order: the reference partition the output of `compute_sha1_map` is
measured against. -/
def pathsOf (rs : List (Option (String × String))) (d : String) : List String :=
  rs.filterMap (fun r =>
    match r with
    | some (h, p) => if h = d then some p else none
    | none => none)

/-! ## Near-duplicate grouping (`compute_perceptual_groups`) -/

/-- A candidate file: its resolved path and the decoded image, `none` when
`Image.open` raises. -/
structure ImageFile where
  path : String
  decoded : Option Resizable

/-- Model of the worker body `ph_for(p)`: `none` when the token is already
observed set, when decoding fails, or when the selected hash raises (the
`except Exception` swallows the `RuntimeError` of `phash`).  Method
dispatch follows the source: `"ahash"`, then `"dhash"`, any other string
falls through to `phash`. -/
def ph_for (hasDCT : Bool) (dct2d : Grey → Grey) (method : String)
    (f : ImageFile) (cancelObserved : Bool) : Option (String × Nat) :=
  if cancelObserved then none
  else
    match f.decoded with
    | none => none
    | some im =>
      if method = "ahash" then some (f.path, ahash im 8)
      else if method = "dhash" then some (f.path, dhash im 8)
      else
        match phash hasDCT dct2d im 32 8 with
        | .ok v => some (f.path, v)
        | .error _ => none

/-- The per-result action of the hashing phase: completed `(path, hash)`
entries are collected in completion order, failures are dropped. -/
def entryHandle (r : Option (String × Nat)) (es : List (String × Nat)) :
    List (String × Nat) :=
  match r with
  | some e => es ++ [e]
  | none => es

/-- The inner scan of the grouping phase: for anchor hash `hi`, walk the
enumerated entries strictly after the anchor, skip indices already in
`used`, and collect (and mark used) every path within distance `T` of the
anchor. Returns the collected paths in scan order and the new `used`. -/
def pcInner (hi T : Nat) : List (Nat × String × Nat) → List Nat →
    List String × List Nat
  | [], used => ([], used)
  | (j, pj, hj) :: tl, used =>
    if j ∈ used then pcInner hi T tl used
    else if hamming hi hj ≤ T then
      let r := pcInner hi T tl (j :: used)
      (pj :: r.1, r.2)
    else pcInner hi T tl used

/-- The outer loop of the grouping phase over the enumerated entries: the
token is checked once per index, a not-yet-used entry becomes the anchor
of a new cluster, and only clusters with 2+ members are appended. -/
def pcOuter (T : Nat) (cancelFrom : Option Nat) :
    List (Nat × String × Nat) → List Nat → List (List String) →
    List (List String)
  | [], _, groups => groups
  | (i, pi, hi) :: tl, used, groups =>
    if isCancelled cancelFrom i then groups
    else if i ∈ used then pcOuter T cancelFrom tl used groups
    else
      let r := pcInner hi T tl (i :: used)
      let cur := pi :: r.1
      pcOuter T cancelFrom tl r.2
        (if 1 < cur.length then groups ++ [cur] else groups)

/-- Model of the grouping phase (`duplicates.py` lines 86-102) over the
completed `(path, hash)` entries. -/
def computePerceptualClusters (entries : List (String × Nat)) (T : Nat)
    (cancelFrom : Option Nat) : List (List String) :=
  pcOuter T cancelFrom entries.enum [] []

/-- Model of `compute_perceptual_groups`.  `files` is the work-item list
in completion order of their futures, `cancelObs` the per-worker view of
the token at worker start, `cancelFromHash` and `cancelFromCluster` the
token observation points of the two sequential loops (the real token is
monotone across the run; the two parameters let every reachable
combination be stated). -/
def compute_perceptual_groups (hasDCT : Bool) (dct2d : Grey → Grey)
    (method : String) (files : List ImageFile) (cancelObs : List Bool)
    (threshold : Nat) (cancelFromHash cancelFromCluster : Option Nat) :
    List (List String) × List Signal :=
  let total := files.length
  let outcomes := List.zipWith (fun f c => ph_for hasDCT dct2d method f c)
    files cancelObs
  let (entries, evs) := dispatchLoop method total cancelFromHash entryHandle
    outcomes 0 [] [Signal.progress 0 total method]
  let groups := computePerceptualClusters entries threshold cancelFromCluster
  (groups, evs ++ [Signal.doneSig ((groups.map (fun g => g.length)).sum)])

/-! ## Spec-side reference definitions

These definitions follow the wording of the specification (not the
source); the claims compare them with the source models above. -/

/-- Reference clustering, following the spec's words: "For each
not-yet-used entry `i`, start a new cluster containing `i`, mark it used,
then scan all subsequent not-yet-used entries `j` and add `j` to the
cluster (marking it used) if `distance(hash[i], hash[j]) ≤ T`", emitting
clusters with 2+ members only.  Consuming the matched entries and
recursing on the rest is the used-set bookkeeping in functional form. -/
def anchorLinkage (T : Nat) : List (String × Nat) → List (List String)
  | [] => []
  | (pi, hi) :: rest =>
    let cur := pi :: (rest.filter (fun e => hamming hi e.2 ≤ T)).map Prod.fst
    let remaining := rest.filter (fun e => !(hamming hi e.2 ≤ T : Bool))
    (if 1 < cur.length then [cur] else []) ++ anchorLinkage T remaining
termination_by l => l.length
decreasing_by
  simp only [List.length_cons]
  exact Nat.lt_succ_of_le (List.length_filter_le _ _)

/-- The cluster opened at anchor `e` when the whole remainder `rest` is
still unused: the anchor's path followed by every path within distance
`T` of the anchor, in order. -/
def anchorCluster (e : String × Nat) (rest : List (String × Nat)) (T : Nat) :
    List String :=
  e.1 :: (rest.filter (fun x => hamming e.2 x.2 ≤ T)).map Prod.fst

/-- Reference difference hash, following the spec's words: "resize to
(S+1)×S, emit one bit per adjacent horizontal pixel pair = 1 if left
pixel intensity > right pixel intensity else 0", packed row-major. -/
def dhashSpec (im : Resizable) (size : Nat) : Nat :=
  let arr := to_grey im (size + 1) size
  packBits ((List.range size).flatMap (fun i => (List.range size).map (fun j =>
    decide ((arr.getD i []).getD (j + 1) 0 < (arr.getD i []).getD j 0))))

/-- The amended difference-hash description: one bit per adjacent
horizontal pixel pair, `1` iff the RIGHT pixel's intensity is strictly
greater than the LEFT pixel's, packed row-major. -/
def dhashSpecFixed (im : Resizable) (size : Nat) : Nat :=
  let arr := to_grey im (size + 1) size
  packBits ((List.range size).flatMap (fun i => (List.range size).map (fun j =>
    decide ((arr.getD i []).getD j 0 < (arr.getD i []).getD (j + 1) 0))))

/-- The completion counts at which the dispatcher emits a progress event
during a run of `total` items: every 50th completion, plus the final
one. -/
def expectedTicks (total : Nat) : List Nat :=
  ((List.range total).map (· + 1)).filter (fun d => d % 50 == 0 || d == total)

/-- The progress events emitted by `n` further loop iterations after
`offset` completions have already been counted. -/
def tickEvents (phase : String) (total : Nat) : Nat → Nat → List Signal
  | _, 0 => []
  | offset, n + 1 =>
    (if (offset + 1) % 50 == 0 || (offset + 1) == total
      then [Signal.progress (offset + 1) total phase] else [])
    ++ tickEvents phase total (offset + 1) n

/-- The `done` counters carried by the progress events of a queue
history. -/
def dones (evs : List Signal) : List Nat :=
  (progressList evs).map (fun e => e.1)

/-- A paths-share-a-group relation on a grouping output. -/
def sharesGroup (groups : List (List String)) (p q : String) : Prop :=
  ∃ g ∈ groups, p ∈ g ∧ q ∈ g

/-- An all-black image whose resize to any `(w, h)` is the constant-zero
`h × w` grid; used to instantiate the claims at a concrete image. -/
def constIm : Resizable := fun wh => List.replicate wh.2 (List.replicate wh.1 (0 : ℚ))

/-- A concrete image whose `(2, 1)` resize is the single row `[0, 5]`;
the left pixel is darker than the right one. -/
def stepIm : Resizable := fun _ => [[(0 : ℚ), 5]]

/-! ## Lemmas about the population count and bit packing -/

theorem popCountAux_fuel_irrel : ∀ fuel1 fuel2 n : Nat, n ≤ fuel1 → n ≤ fuel2 →
    popCountAux fuel1 n = popCountAux fuel2 n := by
  intro fuel1
  induction fuel1 with
  | zero =>
    intro fuel2 n h1 _
    interval_cases n
    cases fuel2 <;> simp [popCountAux]
  | succ f ih =>
    intro fuel2 n h1 h2
    by_cases hn : n = 0
    · subst hn
      cases fuel2 <;> simp [popCountAux]
    · obtain ⟨f2, rfl⟩ : ∃ f2, fuel2 = f2 + 1 := by
        cases fuel2 with
        | zero => omega
        | succ k => exact ⟨k, rfl⟩
      simp only [popCountAux, if_neg hn]
      have hd : n / 2 < n := Nat.div_lt_self (Nat.pos_of_ne_zero hn) one_lt_two
      congr 1
      exact ih f2 (n / 2) (by omega) (by omega)

theorem popCount_zero : popCount 0 = 0 := rfl

theorem popCount_eq_of_ne (n : Nat) (hn : n ≠ 0) :
    popCount n = n % 2 + popCount (n / 2) := by
  obtain ⟨m, rfl⟩ : ∃ m, n = m + 1 := by
    cases n with
    | zero => omega
    | succ k => exact ⟨k, rfl⟩
  show popCountAux (m + 1) (m + 1) = _
  simp only [popCountAux, if_neg hn]
  congr 1
  exact popCountAux_fuel_irrel m ((m + 1) / 2) ((m + 1) / 2) (by omega) le_rfl

theorem popCount_le_of_lt_two_pow : ∀ (w n : Nat), n < 2 ^ w → popCount n ≤ w := by
  intro w
  induction w with
  | zero =>
    intro n h
    interval_cases n
    simp [popCount_zero]
  | succ w ih =>
    intro n h
    by_cases hn : n = 0
    · subst hn; simp [popCount_zero]
    · rw [popCount_eq_of_ne n hn]
      have hd : n / 2 < 2 ^ w := by
        rw [pow_succ] at h
        omega
      have := ih (n / 2) hd
      have : n % 2 ≤ 1 := by omega
      omega

theorem hamming_comm (a b : Nat) : hamming a b = hamming b a := by
  unfold hamming
  rw [Nat.xor_comm]

theorem hamming_self (a : Nat) : hamming a a = 0 := by
  unfold hamming
  rw [Nat.xor_self]
  exact popCount_zero

theorem hamming_le_width (w a b : Nat) (ha : a < 2 ^ w) (hb : b < 2 ^ w) :
    hamming a b ≤ w :=
  popCount_le_of_lt_two_pow w (a ^^^ b) (Nat.xor_lt_two_pow ha hb)

theorem packBits_foldl_lt : ∀ (bits : List Bool) (acc : Nat),
    bits.foldl (fun v b => 2 * v + (if b then 1 else 0)) acc
      < (acc + 1) * 2 ^ bits.length := by
  intro bits
  induction bits with
  | nil => intro acc; simp
  | cons b tl ih =>
    intro acc
    have step : 2 * acc + (if b then 1 else 0) + 1 ≤ 2 * (acc + 1) := by
      by_cases hb : b <;> simp [hb] <;> omega
    calc (b :: tl).foldl (fun v b => 2 * v + (if b then 1 else 0)) acc
        = tl.foldl (fun v b => 2 * v + (if b then 1 else 0))
            (2 * acc + (if b then 1 else 0)) := by simp [List.foldl_cons]
      _ < (2 * acc + (if b then 1 else 0) + 1) * 2 ^ tl.length := ih _
      _ ≤ 2 * (acc + 1) * 2 ^ tl.length :=
          Nat.mul_le_mul_right _ step
      _ = (acc + 1) * 2 ^ (b :: tl).length := by
          simp [List.length_cons, pow_succ]
          ring

theorem packBits_lt (bits : List Bool) : packBits bits < 2 ^ bits.length := by
  have := packBits_foldl_lt bits 0
  simpa [packBits] using this

/-! ## Lemmas about the dispatcher loop -/

theorem dispatchLoop_fst_none {α σ : Type} (phase : String) (total : Nat)
    (handle : Option α → σ → σ) :
    ∀ (rs : List (Option α)) (done : Nat) (st : σ) (evs : List Signal),
      (dispatchLoop phase total none handle rs done st evs).1
        = rs.foldl (fun s r => handle r s) st := by
  intro rs
  induction rs with
  | nil => intro done st evs; rfl
  | cons r rest ih =>
    intro done st evs
    simp only [dispatchLoop, isCancelled, Bool.false_eq_true, if_false, List.foldl_cons]
    exact ih _ _ _

theorem dispatchLoop_snd_extends {α σ : Type} (phase : String) (total : Nat)
    (cancelFrom : Option Nat) (handle : Option α → σ → σ) :
    ∀ (rs : List (Option α)) (done : Nat) (st : σ) (evs : List Signal),
      ∃ tail, (dispatchLoop phase total cancelFrom handle rs done st evs).2
        = evs ++ tail := by
  intro rs
  induction rs with
  | nil => intro done st evs; exact ⟨[], by simp [dispatchLoop]⟩
  | cons r rest ih =>
    intro done st evs
    by_cases hc : isCancelled cancelFrom done
    · exact ⟨[], by simp [dispatchLoop, hc]⟩
    · simp only [dispatchLoop, hc, Bool.false_eq_true, if_false]
      by_cases he : ((done + 1) % 50 == 0 || (done + 1) == total) = true
      · obtain ⟨t, ht⟩ := ih (done + 1) (handle r st)
          (evs ++ [Signal.progress (done + 1) total phase])
        exact ⟨[Signal.progress (done + 1) total phase] ++ t,
          by simp [he, ht]⟩
      · obtain ⟨t, ht⟩ := ih (done + 1) (handle r st) evs
        exact ⟨t, by simp [he, ht]⟩

theorem dispatchLoop_snd_no_terminal {α σ : Type} (phase : String) (total : Nat)
    (cancelFrom : Option Nat) (handle : Option α → σ → σ) :
    ∀ (rs : List (Option α)) (done : Nat) (st : σ) (evs : List Signal),
      (∀ s ∈ evs, isTerminal s = false) →
      ∀ s ∈ (dispatchLoop phase total cancelFrom handle rs done st evs).2,
        isTerminal s = false := by
  intro rs
  induction rs with
  | nil => intro done st evs h; exact h
  | cons r rest ih =>
    intro done st evs h
    by_cases hc : isCancelled cancelFrom done
    · simpa [dispatchLoop, hc] using h
    · simp only [dispatchLoop, hc, Bool.false_eq_true, if_false]
      apply ih
      intro s hs
      by_cases he : ((done + 1) % 50 == 0 || (done + 1) == total) = true
      · simp only [he, if_true] at hs
        rcases List.mem_append.mp hs with h1 | h2
        · exact h s h1
        · simp only [List.mem_singleton] at h2
          subst h2
          rfl
      · simp only [he, if_false] at hs
        exact h s hs

theorem tickEvents_eq_filter (phase : String) (total : Nat) :
    ∀ (n offset : Nat),
      tickEvents phase total offset n
        = (((List.range n).map (fun k => offset + k + 1)).filter
            (fun d => d % 50 == 0 || d == total)).map
            (fun d => Signal.progress d total phase) := by
  intro n
  induction n with
  | zero => intro offset; simp [tickEvents]
  | succ n ih =>
    intro offset
    rw [List.range_succ_eq_map]
    simp only [List.map_cons, List.map_map]
    have hmap : (List.range n).map ((fun k => offset + k + 1) ∘ Nat.succ)
        = (List.range n).map (fun k => offset + 1 + k + 1) := by
      apply List.map_congr_left
      intro k _
      simp only [Function.comp_apply]
      omega
    rw [hmap]
    show (if (offset + 1) % 50 == 0 || (offset + 1) == total
        then [Signal.progress (offset + 1) total phase] else [])
      ++ tickEvents phase total (offset + 1) n = _
    rw [ih (offset + 1)]
    have h0 : offset + 0 + 1 = offset + 1 := by omega
    rw [h0, List.filter_cons]
    by_cases he : ((offset + 1) % 50 == 0 || (offset + 1) == total) = true
    · simp [he]
    · simp [he]

theorem tickEvents_full (phase : String) (total : Nat) :
    tickEvents phase total 0 total
      = (expectedTicks total).map (fun d => Signal.progress d total phase) := by
  rw [tickEvents_eq_filter]
  unfold expectedTicks
  congr 2
  apply List.map_congr_left
  intro k _
  omega

theorem dispatchLoop_snd_none {α σ : Type} (phase : String) (total : Nat)
    (handle : Option α → σ → σ) :
    ∀ (rs : List (Option α)) (done : Nat) (st : σ) (evs : List Signal),
      (dispatchLoop phase total none handle rs done st evs).2
        = evs ++ tickEvents phase total done rs.length := by
  intro rs
  induction rs with
  | nil => intro done st evs; simp [dispatchLoop, tickEvents]
  | cons r rest ih =>
    intro done st evs
    simp only [dispatchLoop, isCancelled, Bool.false_eq_true, if_false,
      List.length_cons]
    rw [ih (done + 1) (handle r st) _]
    simp only [tickEvents]
    by_cases he : ((done + 1) % 50 == 0 || (done + 1) == total) = true
    · simp [he]
    · simp [he]

theorem progressList_append (a b : List Signal) :
    progressList (a ++ b) = progressList a ++ progressList b :=
  List.filterMap_append a b _

theorem dones_append (a b : List Signal) :
    dones (a ++ b) = dones a ++ dones b := by
  unfold dones
  rw [progressList_append, List.map_append]

theorem dispatchLoop_dones_mono {α σ : Type} (phase : String) (total : Nat)
    (cancelFrom : Option Nat) (handle : Option α → σ → σ) :
    ∀ (rs : List (Option α)) (done : Nat) (st : σ) (evs : List Signal),
      (dones evs).Pairwise (· ≤ ·) → (∀ x ∈ dones evs, x ≤ done) →
      (dones (dispatchLoop phase total cancelFrom handle rs done st evs).2).Pairwise
        (· ≤ ·) := by
  intro rs
  induction rs with
  | nil => intro done st evs h _; exact h
  | cons r rest ih =>
    intro done st evs hpw hub
    by_cases hc : isCancelled cancelFrom done
    · simpa [dispatchLoop, hc] using hpw
    · simp only [dispatchLoop, hc, Bool.false_eq_true, if_false]
      by_cases he : ((done + 1) % 50 == 0 || (done + 1) == total) = true
      · simp only [he, if_true]
        apply ih
        · rw [dones_append]
          rw [List.pairwise_append]
          refine ⟨hpw, List.pairwise_singleton _ _, ?_⟩
          intro a ha b hb
          have : b = done + 1 := by
            simpa [dones, progressList] using hb
          subst this
          exact le_trans (hub a ha) (Nat.le_succ done)
        · intro x hx
          rw [dones_append] at hx
          rcases List.mem_append.mp hx with h1 | h2
          · exact le_trans (hub x h1) (Nat.le_succ done)
          · have : x = done + 1 := by
              simpa [dones, progressList] using h2
            omega
      · simp only [he, if_false]
        apply ih _ _ _ hpw
        intro x hx
        exact le_trans (hub x hx) (Nat.le_succ done)

/-! ## Lemmas about the digest association list of `compute_sha1_map` -/

/-- How a lookup result combines with the paths still to be folded in. -/
def combineGroup : Option (List String) → List String → Option (List String)
  | none, [] => none
  | none, ps => some ps
  | some v, ps => some (v ++ ps)

theorem lookup_insertGroup : ∀ (gs : List (String × List String)) (h p d : String),
    List.lookup d (insertGroup gs h p)
      = if d = h then some ((List.lookup d gs).getD [] ++ [p])
        else List.lookup d gs := by
  intro gs
  induction gs with
  | nil =>
    intro h p d
    by_cases hdh : d = h
    · have hb : (d == h) = true := beq_iff_eq.mpr hdh
      simp [insertGroup, List.lookup, hb, hdh]
    · have hb : (d == h) = false := by
        simpa using hdh
      simp [insertGroup, List.lookup, hb, hdh]
  | cons kv rest ih =>
    intro h p d
    obtain ⟨k, v⟩ := kv
    by_cases hkh : k = h
    · subst hkh
      by_cases hdk : d = k
      · have hb : (d == k) = true := beq_iff_eq.mpr hdk
        simp [insertGroup, List.lookup, hb, hdk]
      · have hb : (d == k) = false := by simpa using hdk
        simp [insertGroup, List.lookup, hb, hdk]
    · by_cases hdk : d = k
      · have hdh : ¬ d = h := by rw [hdk]; exact hkh
        have hb : (d == k) = true := beq_iff_eq.mpr hdk
        simp [insertGroup, List.lookup, if_neg hkh, hb, if_neg hdh]
      · have hb : (d == k) = false := by simpa using hdk
        simp [insertGroup, List.lookup, if_neg hkh, hb, ih h p d]

theorem pathsOf_nil (d : String) : pathsOf [] d = [] := rfl

theorem pathsOf_cons_none (rs : List (Option (String × String))) (d : String) :
    pathsOf (none :: rs) d = pathsOf rs d := by
  simp [pathsOf]

theorem pathsOf_cons_some (h p : String) (rs : List (Option (String × String)))
    (d : String) :
    pathsOf (some (h, p) :: rs) d
      = if h = d then p :: pathsOf rs d else pathsOf rs d := by
  by_cases hd : h = d <;> simp [pathsOf, hd]

theorem sha1_fold_lookup :
    ∀ (rs : List (Option (String × String))) (gs : List (String × List String))
      (d : String), d ≠ "" →
      List.lookup d (rs.foldl (fun gs r => sha1Handle r gs) gs)
        = combineGroup (List.lookup d gs) (pathsOf rs d) := by
  intro rs
  induction rs with
  | nil =>
    intro gs d _
    rw [pathsOf_nil]
    simp only [List.foldl_nil]
    cases hl : List.lookup d gs with
    | none => simp [combineGroup, hl]
    | some v => simp [combineGroup, hl]
  | cons r rest ih =>
    intro gs d hd
    cases r with
    | none =>
      rw [pathsOf_cons_none]
      exact ih gs d hd
    | some hp =>
      obtain ⟨h, p⟩ := hp
      rw [pathsOf_cons_some]
      by_cases hne : h = ""
      · subst hne
        have hnd : ¬ ("" : String) = d := fun e => hd e.symm
        have hstep : List.foldl (fun gs r => sha1Handle r gs) gs (some ("", p) :: rest)
            = List.foldl (fun gs r => sha1Handle r gs) gs rest := by
          rw [List.foldl_cons]
          congr 1
        rw [hstep]
        simp only [hnd, if_false]
        exact ih gs d hd
      · have hstep : List.foldl (fun gs r => sha1Handle r gs) gs (some (h, p) :: rest)
            = List.foldl (fun gs r => sha1Handle r gs) (insertGroup gs h p) rest := by
          rw [List.foldl_cons]
          congr 1
          simp [sha1Handle, hne]
        rw [hstep, ih (insertGroup gs h p) d hd, lookup_insertGroup]
        by_cases hdh : d = h
        · have hhd : h = d := hdh.symm
          simp only [if_pos hdh, if_pos hhd]
          cases hl : List.lookup d gs with
          | none => cases pathsOf rest d <;> simp [combineGroup]
          | some v => cases pathsOf rest d <;> simp [combineGroup]
        · have hhd : ¬ h = d := fun e => hdh e.symm
          simp [if_neg hdh, if_neg hhd]

theorem insertGroup_keys : ∀ (gs : List (String × List String)) (h p : String),
    (insertGroup gs h p).map Prod.fst
      = if h ∈ gs.map Prod.fst then gs.map Prod.fst
        else gs.map Prod.fst ++ [h] := by
  intro gs
  induction gs with
  | nil => intro h p; simp [insertGroup]
  | cons kv rest ih =>
    intro h p
    obtain ⟨k, v⟩ := kv
    by_cases hkh : k = h
    · subst hkh
      simp [insertGroup]
    · have : ¬ h = k := fun e => hkh e.symm
      simp only [insertGroup, if_neg hkh, List.map_cons, List.mem_cons, this,
        false_or]
      rw [ih h p]
      by_cases hm : h ∈ rest.map Prod.fst
      · simp [hm]
      · simp [hm]

theorem sha1_fold_keys_nodup :
    ∀ (rs : List (Option (String × String))) (gs : List (String × List String)),
      (gs.map Prod.fst).Nodup →
      (((rs.foldl (fun gs r => sha1Handle r gs) gs)).map Prod.fst).Nodup := by
  intro rs
  induction rs with
  | nil => intro gs h; exact h
  | cons r rest ih =>
    intro gs hnd
    cases r with
    | none => exact ih gs hnd
    | some hp =>
      obtain ⟨h, p⟩ := hp
      by_cases hne : h = ""
      · subst hne
        have hstep : List.foldl (fun gs r => sha1Handle r gs) gs (some ("", p) :: rest)
            = List.foldl (fun gs r => sha1Handle r gs) gs rest := by
          rw [List.foldl_cons]
          congr 1
        rw [hstep]
        exact ih gs hnd
      · have hstep : List.foldl (fun gs r => sha1Handle r gs) gs (some (h, p) :: rest)
            = List.foldl (fun gs r => sha1Handle r gs) (insertGroup gs h p) rest := by
          rw [List.foldl_cons]
          congr 1
          simp [sha1Handle, hne]
        rw [hstep]
        apply ih
        rw [insertGroup_keys]
        by_cases hm : h ∈ gs.map Prod.fst
        · simpa [hm] using hnd
        · simp only [hm, if_false]
          rw [List.nodup_append]
          exact ⟨hnd, List.nodup_singleton h, fun a ha hb => by
            simp only [List.mem_singleton] at hb
            exact hm (hb ▸ ha)⟩

theorem assoc_mem_iff_lookup :
    ∀ (gs : List (String × List String)) (d : String) (v : List String),
      (gs.map Prod.fst).Nodup →
      ((d, v) ∈ gs ↔ List.lookup d gs = some v) := by
  intro gs
  induction gs with
  | nil => intro d v _; simp [List.lookup]
  | cons kv rest ih =>
    intro d v hnd
    obtain ⟨k, w⟩ := kv
    simp only [List.map_cons, List.nodup_cons] at hnd
    obtain ⟨hk, hrest⟩ := hnd
    by_cases hdk : d = k
    · subst hdk
      have hb : (d == d) = true := beq_iff_eq.mpr rfl
      have hnm : (d, v) ∉ rest := fun hmem =>
        hk (List.mem_map.mpr ⟨(d, v), hmem, rfl⟩)
      simp only [List.lookup, hb, List.mem_cons]
      constructor
      · rintro (he | hmem)
        · cases he; rfl
        · exact absurd hmem hnm
      · intro he
        left
        cases he
        rfl
    · have hb : (d == k) = false := by simpa using hdk
      have hne : (d, v) ≠ (k, w) := fun e => hdk (congrArg Prod.fst e)
      simp only [List.lookup, hb, List.mem_cons, hne, false_or]
      exact ih d v hrest

/-! ## Lemmas about the clustering phase -/

theorem mem_eq_of_nodup_fst {β : Type} :
    ∀ (l : List (Nat × β)) (a b : Nat × β),
      (l.map Prod.fst).Nodup → a ∈ l → b ∈ l → a.1 = b.1 → a = b := by
  intro l
  induction l with
  | nil => intro a b _ ha _ _; exact absurd ha (List.not_mem_nil a)
  | cons x tl ih =>
    intro a b hnd ha hb hfst
    simp only [List.map_cons, List.nodup_cons] at hnd
    obtain ⟨hx, hnd'⟩ := hnd
    rcases List.mem_cons.mp ha with rfl | ha' <;>
      rcases List.mem_cons.mp hb with rfl | hb'
    · rfl
    · exact absurd (List.mem_map.mpr ⟨b, hb', hfst.symm⟩) hx
    · exact absurd (List.mem_map.mpr ⟨a, ha', hfst⟩) hx
    · exact ih a b hnd' ha' hb' hfst

theorem mem_filter_map_fst_iff {β : Type} :
    ∀ (l : List (Nat × β)) (P : Nat × β → Bool) (je : Nat × β),
      (l.map Prod.fst).Nodup → je ∈ l →
      (je.1 ∈ (l.filter P).map Prod.fst ↔ P je = true) := by
  intro l P je hnd hje
  constructor
  · intro hmem
    obtain ⟨ke, hkf, hke⟩ := List.mem_map.mp hmem
    obtain ⟨hkl, hkP⟩ := List.mem_filter.mp hkf
    have : ke = je := mem_eq_of_nodup_fst l ke je hnd hkl hje hke
    exact this ▸ hkP
  · intro hP
    exact List.mem_map.mpr ⟨je, List.mem_filter.mpr ⟨hje, hP⟩, rfl⟩

/-- The membership test of the inner scan: within distance of the anchor
and not claimed by an earlier anchor. -/
def innerPred (hi T : Nat) (used : List Nat) (je : Nat × String × Nat) : Bool :=
  decide (hamming hi je.2.2 ≤ T) && decide (je.1 ∉ used)

theorem pcInner_fst (hi T : Nat) :
    ∀ (tl : List (Nat × String × Nat)) (used : List Nat),
      (tl.map Prod.fst).Nodup →
      (pcInner hi T tl used).1
        = (tl.filter (innerPred hi T used)).map (fun je => je.2.1) := by
  intro tl
  induction tl with
  | nil => intro used _; simp [pcInner]
  | cons je tl ih =>
    intro used hnd
    obtain ⟨j, pj, hj⟩ := je
    simp only [List.map_cons, List.nodup_cons] at hnd
    obtain ⟨hjn, hnd'⟩ := hnd
    by_cases hju : j ∈ used
    · have hp : innerPred hi T used (j, pj, hj) = false := by
        simp [innerPred, hju]
      simp only [pcInner, if_pos hju, List.filter_cons, hp, Bool.false_eq_true,
        if_false]
      exact ih used hnd'
    · by_cases hham : hamming hi hj ≤ T
      · have hp : innerPred hi T used (j, pj, hj) = true := by
          simp [innerPred, hju, hham]
        simp only [pcInner, if_neg hju, if_pos hham, List.filter_cons, hp,
          if_true, List.map_cons]
        congr 1
        rw [ih (j :: used) hnd']
        congr 1
        apply List.filter_congr
        intro ke hke
        have hkj : ke.1 ≠ j := fun e =>
          hjn (List.mem_map.mpr ⟨ke, hke, e⟩)
        simp [innerPred, hkj]
      · have hp : innerPred hi T used (j, pj, hj) = false := by
          simp [innerPred, hham]
        simp only [pcInner, if_neg hju, if_neg hham, List.filter_cons, hp,
          Bool.false_eq_true, if_false]
        exact ih used hnd'

theorem pcInner_snd_mem (hi T : Nat) :
    ∀ (tl : List (Nat × String × Nat)) (used : List Nat) (k : Nat),
      (tl.map Prod.fst).Nodup →
      (k ∈ (pcInner hi T tl used).2 ↔
        k ∈ used ∨ k ∈ (tl.filter (innerPred hi T used)).map Prod.fst) := by
  intro tl
  induction tl with
  | nil => intro used k _; simp [pcInner]
  | cons je tl ih =>
    intro used k hnd
    obtain ⟨j, pj, hj⟩ := je
    simp only [List.map_cons, List.nodup_cons] at hnd
    obtain ⟨hjn, hnd'⟩ := hnd
    by_cases hju : j ∈ used
    · have hp : innerPred hi T used (j, pj, hj) = false := by
        simp [innerPred, hju]
      simp only [pcInner, if_pos hju, List.filter_cons, hp, Bool.false_eq_true,
        if_false]
      exact ih used k hnd'
    · by_cases hham : hamming hi hj ≤ T
      · have hp : innerPred hi T used (j, pj, hj) = true := by
          simp [innerPred, hju, hham]
        simp only [pcInner, if_neg hju, if_pos hham, List.filter_cons, hp,
          if_true, List.map_cons]
        rw [ih (j :: used) k hnd']
        have hcongr : tl.filter (innerPred hi T (j :: used))
            = tl.filter (innerPred hi T used) := by
          apply List.filter_congr
          intro ke hke
          have hkj : ke.1 ≠ j := fun e =>
            hjn (List.mem_map.mpr ⟨ke, hke, e⟩)
          simp [innerPred, hkj]
        rw [hcongr]
        simp only [List.mem_cons]
        tauto
      · have hp : innerPred hi T used (j, pj, hj) = false := by
          simp [innerPred, hham]
        simp only [pcInner, if_neg hju, if_neg hham, List.filter_cons, hp,
          Bool.false_eq_true, if_false]
        exact ih used k hnd'

/-- The not-yet-claimed test of the outer loop. -/
def notUsedPred (used : List Nat) (ie : Nat × String × Nat) : Bool :=
  decide (ie.1 ∉ used)

/-- The distance test against the anchor's hash. -/
def closePred (hi T : Nat) (je : Nat × String × Nat) : Bool :=
  decide (hamming hi je.2.2 ≤ T)

theorem innerPred_split (hi T : Nat) (used : List Nat) (tl : List (Nat × String × Nat)) :
    tl.filter (innerPred hi T used)
      = (tl.filter (notUsedPred used)).filter (closePred hi T) := by
  rw [List.filter_filter]
  apply List.filter_congr
  intro je _
  simp [innerPred, notUsedPred, closePred]

theorem filter_snd_map (p : (String × Nat) → Bool) (l : List (Nat × String × Nat)) :
    (l.filter (fun je => p je.2)).map Prod.snd = (l.map Prod.snd).filter p := by
  rw [List.filter_map]
  apply List.map_congr_left
  intro je hje
  rfl

theorem pcOuter_eq_anchorLinkage (T : Nat) :
    ∀ (l : List (Nat × String × Nat)) (used : List Nat)
      (groups : List (List String)),
      (l.map Prod.fst).Nodup →
      pcOuter T none l used groups
        = groups ++ anchorLinkage T ((l.filter (notUsedPred used)).map Prod.snd) := by
  intro l
  induction l with
  | nil => intro used groups _; simp [pcOuter, anchorLinkage]
  | cons ie tl ih =>
    intro used groups hnd
    obtain ⟨i, pi, hi⟩ := ie
    simp only [List.map_cons, List.nodup_cons] at hnd
    obtain ⟨hin, hnd'⟩ := hnd
    by_cases hiu : i ∈ used
    · have hp : notUsedPred used (i, pi, hi) = false := by
        simp [notUsedPred, hiu]
      simp only [pcOuter, isCancelled, Bool.false_eq_true, if_false, if_pos hiu,
        List.filter_cons, hp]
      exact ih used groups hnd'
    · have hp : notUsedPred used (i, pi, hi) = true := by
        simp [notUsedPred, hiu]
      simp only [pcOuter, isCancelled, Bool.false_eq_true, if_false, if_neg hiu,
        List.filter_cons, hp, if_true, List.map_cons]
      -- the congruence moving the inner-scan bookkeeping from `i :: used`
      -- back to `used`: `i` does not occur among the indices of `tl`
      have hcongr : tl.filter (innerPred hi T (i :: used))
          = tl.filter (innerPred hi T used) := by
        apply List.filter_congr
        intro ke hke
        have hki : ke.1 ≠ i := fun e => hin (List.mem_map.mpr ⟨ke, hke, e⟩)
        simp [innerPred, hki]
      -- (A) the matched paths are the close entries of the unclaimed rest
      have hm : (pcInner hi T tl (i :: used)).1
          = (((tl.filter (notUsedPred used)).map Prod.snd).filter
              (fun e => decide (hamming hi e.2 ≤ T))).map Prod.fst := by
        rw [pcInner_fst hi T tl (i :: used) hnd', hcongr, innerPred_split]
        have hsnd : ((tl.filter (notUsedPred used)).filter (closePred hi T)).map
              (fun je => je.2.1)
            = (((tl.filter (notUsedPred used)).filter (closePred hi T)).map
                Prod.snd).map Prod.fst := by
          rw [List.map_map]
          apply List.map_congr_left
          intro je _
          rfl
        rw [hsnd]
        congr 1
        have : ((tl.filter (notUsedPred used)).filter (closePred hi T)).map Prod.snd
            = ((tl.filter (notUsedPred used)).filter
                (fun je => decide (hamming hi je.2.2 ≤ T))).map Prod.snd := rfl
        rw [this]
        exact filter_snd_map (fun e => decide (hamming hi e.2 ≤ T))
          (tl.filter (notUsedPred used))
      -- (C) the entries left unclaimed after the scan are the far ones
      have hrest : tl.filter (notUsedPred (pcInner hi T tl (i :: used)).2)
          = (tl.filter (notUsedPred used)).filter
              (fun je => !(decide (hamming hi je.2.2 ≤ T))) := by
        have hstep : tl.filter (notUsedPred (pcInner hi T tl (i :: used)).2)
            = tl.filter (fun je =>
                !(decide (hamming hi je.2.2 ≤ T)) && notUsedPred used je) := by
          apply List.filter_congr
          intro ke hke
          have hki : ke.1 ≠ i := fun e => hin (List.mem_map.mpr ⟨ke, hke, e⟩)
          have hmem := pcInner_snd_mem hi T tl (i :: used) ke.1 hnd'
          rw [hcongr] at hmem
          have hidx := mem_filter_map_fst_iff tl (innerPred hi T used) ke hnd' hke
          simp only [notUsedPred, innerPred] at hmem hidx ⊢
          by_cases hc : hamming hi ke.2.2 ≤ T <;>
            by_cases hu : ke.1 ∈ used <;>
            simp [hc, hu, hki, hmem, hidx]
        rw [hstep, List.filter_filter]
      have hIH := ih (pcInner hi T tl (i :: used)).2
        (if 1 < (pi :: (pcInner hi T tl (i :: used)).1).length
          then groups ++ [pi :: (pcInner hi T tl (i :: used)).1] else groups) hnd'
      rw [hIH, hrest]
      -- unfold the spec-side step
      have hanchor : anchorLinkage T ((pi, hi) ::
            (tl.filter (notUsedPred used)).map Prod.snd)
          = (if 1 < (pi :: (((tl.filter (notUsedPred used)).map Prod.snd).filter
                (fun e => decide (hamming hi e.2 ≤ T))).map Prod.fst).length
              then [pi :: (((tl.filter (notUsedPred used)).map Prod.snd).filter
                (fun e => decide (hamming hi e.2 ≤ T))).map Prod.fst] else [])
            ++ anchorLinkage T (((tl.filter (notUsedPred used)).map Prod.snd).filter
                (fun e => !(decide (hamming hi e.2 ≤ T)))) := by
          simp only [anchorLinkage]
      have hfsnd : ((tl.filter (notUsedPred used)).filter
            (fun je => !(decide (hamming hi je.2.2 ≤ T)))).map Prod.snd
          = ((tl.filter (notUsedPred used)).map Prod.snd).filter
              (fun e => !(decide (hamming hi e.2 ≤ T))) :=
        filter_snd_map (fun e => !(decide (hamming hi e.2 ≤ T)))
          (tl.filter (notUsedPred used))
      rw [hanchor, hfsnd, hm]
      by_cases hlen : 1 < (pi :: (((tl.filter (notUsedPred used)).map
          Prod.snd).filter (fun e => decide (hamming hi e.2 ≤ T))).map
          Prod.fst).length
      · simp only [if_pos hlen]
        rw [List.append_assoc]
      · simp only [if_neg hlen, List.nil_append]

theorem computePerceptualClusters_eq_anchorLinkage
    (entries : List (String × Nat)) (T : Nat) :
    computePerceptualClusters entries T none = anchorLinkage T entries := by
  unfold computePerceptualClusters
  rw [pcOuter_eq_anchorLinkage T entries.enum [] []
    (by rw [List.enum_map_fst]; exact List.nodup_range _)]
  have : entries.enum.filter (notUsedPred []) = entries.enum := by
    apply List.filter_eq_self.mpr
    intro ie _
    simp [notUsedPred]
  rw [this, List.enum_map_snd, List.nil_append]

theorem anchorLinkage_sizes (T : Nat) :
    ∀ (entries : List (String × Nat)) (g : List String),
      g ∈ anchorLinkage T entries → 2 ≤ g.length := by
  intro entries
  induction entries using anchorLinkage.induct T with
  | case1 => intro g hg; simp [anchorLinkage] at hg
  | case2 pi hi rest remaining ih =>
    intro g hg
    simp only [anchorLinkage] at hg
    rcases List.mem_append.mp hg with h1 | h2
    · by_cases hlen : 1 < (pi :: (rest.filter
          (fun e => decide (hamming hi e.2 ≤ T))).map Prod.fst).length
      · rw [if_pos hlen] at h1
        simp only [List.mem_singleton] at h1
        subst h1
        omega
      · rw [if_neg hlen] at h1
        exact absurd h1 (List.not_mem_nil g)
    · exact ih g h2

theorem anchorLinkage_count (T : Nat) :
    ∀ (entries : List (String × Nat)) (p : String),
      ((anchorLinkage T entries).flatten).count p
        ≤ (entries.map Prod.fst).count p := by
  intro entries
  induction entries using anchorLinkage.induct T with
  | case1 => intro p; simp [anchorLinkage]
  | case2 pi hi rest remaining ih =>
    intro p
    have hrem : remaining
        = rest.filter (fun e => !(decide (hamming hi e.2 ≤ T))) := rfl
    rw [hrem] at ih
    have hperm : ((rest.filter (fun e => decide (hamming hi e.2 ≤ T))
          ++ rest.filter (fun e => !(decide (hamming hi e.2 ≤ T)))).map
            Prod.fst).Perm (rest.map Prod.fst) :=
      List.Perm.map Prod.fst (List.filter_append_perm _ rest)
    have hcnt := hperm.count_eq p
    rw [List.map_append, List.count_append] at hcnt
    have hrec := ih p
    have hgoal : anchorLinkage T ((pi, hi) :: rest)
        = (if 1 < (pi :: (rest.filter
              (fun e => decide (hamming hi e.2 ≤ T))).map Prod.fst).length
            then [pi :: (rest.filter
              (fun e => decide (hamming hi e.2 ≤ T))).map Prod.fst] else [])
          ++ anchorLinkage T
              (rest.filter (fun e => !(decide (hamming hi e.2 ≤ T)))) := by
      simp only [anchorLinkage]
    rw [hgoal]
    by_cases hlen : 1 < (pi :: (rest.filter
        (fun e => decide (hamming hi e.2 ≤ T))).map Prod.fst).length
    · rw [if_pos hlen, List.singleton_append, List.flatten_cons,
        List.count_append, List.count_cons, List.map_cons, List.count_cons]
      have hfst : (((pi, hi).1 == p) = true) = ((pi == p) = true) := rfl
      simp only [hfst]
      omega
    · rw [if_neg hlen, List.nil_append, List.map_cons, List.count_cons]
      omega

/-! ## Characterization of the exact-grouping output -/

theorem sha1_out_char (results : List (Option (String × String)))
    (d : String) (ps : List String) :
    ((d, ps) ∈ (compute_sha1_map results none).1) ↔
      (d ≠ "" ∧ ps = pathsOf results d ∧ 2 ≤ ps.length) := by
  simp only [compute_sha1_map]
  rw [dispatchLoop_fst_none]
  have hnd := sha1_fold_keys_nodup results [] (by simp)
  constructor
  · intro hmem
    obtain ⟨hgs, hpred⟩ := List.mem_filter.mp hmem
    have hpl : 1 < ps.length ∧ d ≠ "" := by simpa using hpred
    have hlk := (assoc_mem_iff_lookup _ d ps hnd).mp hgs
    rw [sha1_fold_lookup results [] d hpl.2] at hlk
    have hnil : List.lookup d ([] : List (String × List String)) = none := rfl
    rw [hnil] at hlk
    cases hps : pathsOf results d with
    | nil => rw [hps] at hlk; exact absurd hlk (by simp [combineGroup])
    | cons a t =>
      rw [hps] at hlk
      simp only [combineGroup] at hlk
      obtain rfl : a :: t = ps := by injection hlk
      exact ⟨hpl.2, rfl, by omega⟩
  · rintro ⟨hd, rfl, hlen⟩
    apply List.mem_filter.mpr
    constructor
    · apply (assoc_mem_iff_lookup _ d _ hnd).mpr
      rw [sha1_fold_lookup results [] d hd]
      have hnil : List.lookup d ([] : List (String × List String)) = none := rfl
      rw [hnil]
      cases hps : pathsOf results d with
      | nil => rw [hps] at hlen; simp at hlen
      | cons a t => simp [combineGroup]
    · have : 1 < (pathsOf results d).length := by omega
      simp [this, hd]

theorem sha1_out_keys_nodup (results : List (Option (String × String))) :
    (((compute_sha1_map results none).1).map Prod.fst).Nodup := by
  simp only [compute_sha1_map]
  rw [dispatchLoop_fst_none]
  have hnd := sha1_fold_keys_nodup results [] (by simp)
  exact List.Nodup.sublist
    (List.Sublist.map Prod.fst (List.filter_sublist _)) hnd

/-! ## Support lemmas for the progress and terminal-signal claims -/

theorem progressList_map_progress (total : Nat) (phase : String) :
    ∀ (l : List Nat),
      progressList (l.map (fun d => Signal.progress d total phase))
        = l.map (fun d => (d, total, phase)) := by
  intro l
  induction l with
  | nil => rfl
  | cons d tl ih =>
    simp only [List.map_cons, progressList, List.filterMap_cons]
    simp only [progressList] at ih
    rw [ih]

theorem expectedTicks_concat (total : Nat) (h : 0 < total) :
    ∃ X, expectedTicks total = X ++ [total] := by
  obtain ⟨t, rfl⟩ : ∃ t, total = t + 1 := by
    cases total with
    | zero => omega
    | succ k => exact ⟨k, rfl⟩
  refine ⟨(((List.range t).map (· + 1)).filter
    (fun d => d % 50 == 0 || d == t + 1)), ?_⟩
  unfold expectedTicks
  rw [List.range_succ, List.map_append, List.filter_append]
  congr 1
  simp

theorem expectedTicks_getLast (total : Nat) (h : 0 < total) :
    (expectedTicks total).getLast? = some total := by
  obtain ⟨X, hX⟩ := expectedTicks_concat total h
  rw [hX]
  exact List.getLast?_concat X

theorem compute_sha1_map_filter_terminal
    (results : List (Option (String × String))) (cancelFrom : Option Nat) :
    ((compute_sha1_map results cancelFrom).2).filter isTerminal
      = [Signal.doneSig ((((dispatchLoop "sha1" results.length cancelFrom
          sha1Handle results 0 [] []).1.filter
            (fun kv => decide (1 < kv.2.length) && decide (kv.1 ≠ ""))).map
              (fun kv => kv.2.length)).sum)] := by
  simp only [compute_sha1_map]
  rw [List.filter_append]
  have hnt := dispatchLoop_snd_no_terminal "sha1" results.length cancelFrom
    sha1Handle results 0 [] [] (by intro s hs; exact absurd hs (List.not_mem_nil s))
  have : (dispatchLoop "sha1" results.length cancelFrom
      sha1Handle results 0 [] []).2.filter isTerminal = [] :=
    List.filter_eq_nil_iff.mpr (fun s hs => by rw [hnt s hs]; exact Bool.false_ne_true)
  rw [this, List.nil_append]
  rfl

theorem compute_perceptual_groups_filter_terminal (hasDCT : Bool)
    (dct2d : Grey → Grey) (method : String) (files : List ImageFile)
    (cancelObs : List Bool) (threshold : Nat)
    (cancelFromHash cancelFromCluster : Option Nat) :
    ∃ n, ((compute_perceptual_groups hasDCT dct2d method files cancelObs
      threshold cancelFromHash cancelFromCluster).2).filter isTerminal
        = [Signal.doneSig n] := by
  simp only [compute_perceptual_groups]
  rw [List.filter_append]
  have hnt := dispatchLoop_snd_no_terminal method files.length cancelFromHash
    entryHandle (List.zipWith (fun f c => ph_for hasDCT dct2d method f c)
      files cancelObs) 0 [] [Signal.progress 0 files.length method]
    (by intro s hs
        simp only [List.mem_singleton] at hs
        rw [hs]
        rfl)
  have hnil : (dispatchLoop method files.length cancelFromHash entryHandle
      (List.zipWith (fun f c => ph_for hasDCT dct2d method f c) files cancelObs)
      0 [] [Signal.progress 0 files.length method]).2.filter isTerminal = [] :=
    List.filter_eq_nil_iff.mpr (fun s hs => by rw [hnt s hs]; exact Bool.false_ne_true)
  rw [hnil, List.nil_append]
  exact ⟨_, rfl⟩

/-! ## Support lemmas for the phash-unavailability claim -/

theorem ph_for_phash_noDCT (dct2d : Grey → Grey) (f : ImageFile)
    (c : Bool) : ph_for false dct2d "phash" f c = none := by
  unfold ph_for
  by_cases hc : c
  · simp [hc]
  · cases f.decoded with
    | none => simp [hc]
    | some im => simp [hc, phash]

theorem dispatchLoop_state_all_none {α σ : Type} (phase : String) (total : Nat)
    (cancelFrom : Option Nat) (handle : Option α → σ → σ)
    (hskip : ∀ st, handle none st = st) :
    ∀ (rs : List (Option α)) (done : Nat) (st : σ) (evs : List Signal),
      (∀ r ∈ rs, r = none) →
      (dispatchLoop phase total cancelFrom handle rs done st evs).1 = st := by
  intro rs
  induction rs with
  | nil => intro done st evs _; rfl
  | cons r rest ih =>
    intro done st evs hall
    have hr : r = none := hall r (List.mem_cons_self r rest)
    by_cases hc : isCancelled cancelFrom done
    · simp [dispatchLoop, hc]
    · simp only [dispatchLoop, hc, Bool.false_eq_true, if_false]
      rw [show handle r st = st from hr ▸ hskip st]
      exact ih _ _ _ (fun x hx => hall x (List.mem_cons_of_mem r hx))

theorem zipWith_all_none {α β γ : Type} (f : α → β → Option γ)
    (hf : ∀ a b, f a b = none) :
    ∀ (l1 : List α) (l2 : List β), ∀ r ∈ List.zipWith f l1 l2, r = none := by
  intro l1
  induction l1 with
  | nil => intro l2 r hr; simp at hr
  | cons a tl ih =>
    intro l2 r hr
    cases l2 with
    | nil => simp at hr
    | cons b tl2 =>
      simp only [List.zipWith_cons_cons, List.mem_cons] at hr
      rcases hr with rfl | hr
      · exact hf a b
      · exact ih tl2 r hr

/-! ## Claim theorems -/

/-- Claim C1: for every completed set of hash results, `compute_sha1_map`
returns exactly the partition of the results by equal digest, restricted
to digests with 2 or more paths; an empty digest (failed or cancelled
hash) appears in no group, each digest appears at most once, and each
group is exactly the completion-ordered path list of its digest. -/
theorem C1_exact_grouping_partition (results : List (Option (String × String))) :
    (∀ (d : String) (ps : List String),
      (d, ps) ∈ (compute_sha1_map results none).1 ↔
        (d ≠ "" ∧ ps = pathsOf results d ∧ 2 ≤ ps.length)) ∧
    (((compute_sha1_map results none).1).map Prod.fst).Nodup :=
  ⟨fun d ps => sha1_out_char results d ps, sha1_out_keys_nodup results⟩

/-- Claim C2: the clustering phase of `compute_perceptual_groups` is
exactly the spec's anchor linkage — scanning entries in order, each
not-yet-used entry opens a cluster, swallowing every later not-yet-used
entry within distance `T` of the anchor; only clusters of 2+ members are
emitted (second conjunct) and each entry joins at most one cluster (the
multiset of emitted paths counts no entry twice, third conjunct). -/
theorem C2_anchor_linkage_clustering (entries : List (String × Nat)) (T : Nat) :
    computePerceptualClusters entries T none = anchorLinkage T entries ∧
    (∀ g ∈ computePerceptualClusters entries T none, 2 ≤ g.length) ∧
    (∀ p : String,
      ((computePerceptualClusters entries T none).flatten).count p
        ≤ (entries.map Prod.fst).count p) := by
  have he := computePerceptualClusters_eq_anchorLinkage entries T
  refine ⟨he, ?_, ?_⟩
  · rw [he]
    exact anchorLinkage_sizes T entries
  · intro p
    rw [he]
    exact anchorLinkage_count T entries p

/-- Witness for C2 at a concrete entry list: hashes `0, 1, 7` with
threshold 1 cluster the first two entries and drop the third. -/
theorem C2_anchor_linkage_clustering_witness :
    (computePerceptualClusters [("a", 0), ("b", 1), ("c", 7)] 1 none
      = anchorLinkage 1 [("a", 0), ("b", 1), ("c", 7)]) ∧
    2 ≤ (["a", "b"] : List String).length ∧
    ((computePerceptualClusters [("a", 0), ("b", 1), ("c", 7)] 1 none).flatten).count "a"
      ≤ ([("a", 0), ("b", 1), ("c", 7)].map Prod.fst).count "a" := by
  have h := C2_anchor_linkage_clustering [("a", 0), ("b", 1), ("c", 7)] 1
  exact ⟨h.1, h.2.1 ["a", "b"] (by decide), h.2.2 "a"⟩

/-- Claim C4, counterexample: a `compute_sha1_map` run that observes the
cancellation token set at the very first loop check still ends with the
`manage_done` signal (here with found count 0); no distinguished
"cancelled" terminal signal exists anywhere in the queue history, so the
claim that a cancelled run ends with a "cancelled" signal rather than a
"done" signal is false of the code. -/
theorem C4_terminal_signal_counterexample :
    isCancelled (some 0) 0 = true ∧
    (compute_sha1_map [some ("a", "p1")] (some 0)).2 = [Signal.doneSig 0] ∧
    Signal.cancelledSig ∉ (compute_sha1_map [some ("a", "p1")] (some 0)).2 := by
  decide

/-- Claim C4, amended: every run of either engine function emits exactly
one terminal signal, and it is always the `manage_done` signal carrying a
found count — also for runs during which the cancellation token was
observed set; cancellation is not distinguished in the terminal signal. -/
theorem C4_terminal_signal_amended
    (results : List (Option (String × String))) (cancelFrom : Option Nat)
    (hasDCT : Bool) (dct2d : Grey → Grey) (method : String)
    (files : List ImageFile) (cancelObs : List Bool) (threshold : Nat)
    (cancelFromHash cancelFromCluster : Option Nat) :
    (∃ n, ((compute_sha1_map results cancelFrom).2).filter isTerminal
      = [Signal.doneSig n]) ∧
    (∃ n, ((compute_perceptual_groups hasDCT dct2d method files cancelObs
      threshold cancelFromHash cancelFromCluster).2).filter isTerminal
        = [Signal.doneSig n]) :=
  ⟨⟨_, compute_sha1_map_filter_terminal results cancelFrom⟩,
    compute_perceptual_groups_filter_terminal hasDCT dct2d method files
      cancelObs threshold cancelFromHash cancelFromCluster⟩

/-- Claim C5, counterexample: selecting the frequency hash with
`HAS_DCT = False` does not raise at call time — the run dispatches its
work item (two progress events reach the queue), the per-item
`RuntimeError` is swallowed by the worker's exception handler
(`ph_for` returns `None`), and the run completes normally with the
`manage_done` terminal signal and an empty group list. -/
theorem C5_phash_config_error_counterexample :
    compute_perceptual_groups false id "phash" [⟨"p", some constIm⟩] [false]
        5 none none
      = ([], [Signal.progress 0 1 "phash", Signal.progress 1 1 "phash",
          Signal.doneSig 0]) ∧
    ph_for false id "phash" ⟨"p", some constIm⟩ false = none := by
  constructor
  · decide
  · decide

/-- Claim C5, amended: with the frequency hash selected and no DCT
primitive, `compute_perceptual_groups` does not consult `HAS_DCT` before
dispatching: the initial progress event is still emitted, every per-item
`phash` error is swallowed inside the worker (`ph_for` yields `None` for
every file), and the run completes normally with an empty group list. -/
theorem C5_phash_config_error_amended (dct2d : Grey → Grey)
    (files : List ImageFile) (cancelObs : List Bool) (threshold : Nat)
    (cancelFromHash cancelFromCluster : Option Nat) :
    (compute_perceptual_groups false dct2d "phash" files cancelObs threshold
      cancelFromHash cancelFromCluster).1 = [] ∧
    (∀ (f : ImageFile) (c : Bool), ph_for false dct2d "phash" f c = none) ∧
    ((compute_perceptual_groups false dct2d "phash" files cancelObs threshold
      cancelFromHash cancelFromCluster).2).head?
        = some (Signal.progress 0 files.length "phash") := by
  refine ⟨?_, fun f c => ph_for_phash_noDCT dct2d f c, ?_⟩
  · simp only [compute_perceptual_groups]
    rw [dispatchLoop_state_all_none "phash" files.length cancelFromHash
      entryHandle (fun st => rfl) _ 0 [] _
      (zipWith_all_none _ (fun f c => ph_for_phash_noDCT dct2d f c)
        files cancelObs)]
    rfl
  · simp only [compute_perceptual_groups]
    obtain ⟨tail, ht⟩ := dispatchLoop_snd_extends "phash" files.length
      cancelFromHash entryHandle
      (List.zipWith (fun f c => ph_for false dct2d "phash" f c) files cancelObs)
      0 [] [Signal.progress 0 files.length "phash"]
    rw [ht]
    simp

/-- Claim C9: the bit-distance metric laws — symmetry, the width bound
for fingerprints below `2 ^ w` (non-negativity is inherent in `Nat`),
and zero self-distance. -/
theorem C9_hamming_metric_laws (w a b c : Nat) (ha : a < 2 ^ w)
    (hb : b < 2 ^ w) :
    hamming a b = hamming b a ∧ hamming a b ≤ w ∧ hamming c c = 0 :=
  ⟨hamming_comm a b, hamming_le_width w a b ha hb, hamming_self c⟩

/-- Witness for C9 at `w = 4`, `a = 3`, `b = 5`, `c = 9`. -/
theorem C9_hamming_metric_laws_witness :
    hamming 3 5 = hamming 5 3 ∧ hamming 3 5 ≤ 4 ∧ hamming 9 9 = 0 :=
  C9_hamming_metric_laws 4 3 5 9 (by decide) (by decide)

/-! ## Support lemmas for the difference-hash and width-bound claims -/

theorem getD_mem_of_lt {α : Type} (d : α) :
    ∀ (l : List α) (i : Nat), i < l.length → l.getD i d ∈ l := by
  intro l
  induction l with
  | nil => intro i h; simp at h
  | cons x tl ih =>
    intro i h
    cases i with
    | zero => rw [List.getD_cons_zero]; exact List.mem_cons_self x tl
    | succ j =>
      rw [List.getD_cons_succ]
      exact List.mem_cons_of_mem x (ih j (by simpa using h))

theorem rowDiffBits_eq_range : ∀ (row : List ℚ),
    rowDiffBits row = (List.range (row.length - 1)).map
      (fun j => decide (row.getD j 0 < row.getD (j + 1) 0)) := by
  intro row
  induction row with
  | nil => rfl
  | cons x tl ih =>
    cases tl with
    | nil => rfl
    | cons y tl2 =>
      show ((x :: y :: tl2).zip (y :: tl2)).map (fun p => decide (p.1 < p.2)) = _
      rw [List.zip_cons_cons, List.map_cons]
      have hlen : (x :: y :: tl2).length - 1 = tl2.length + 1 := by
        simp
      rw [hlen, List.range_succ_eq_map, List.map_cons, List.map_map]
      congr 1

theorem map_flatten_eq_range_flatMap {α : Type} (f : List ℚ → List α) :
    ∀ (g : Grey), (g.map f).flatten
      = (List.range g.length).flatMap (fun i => f (g.getD i [])) := by
  intro g
  induction g with
  | nil => rfl
  | cons r tl ih =>
    rw [List.map_cons, List.flatten_cons, List.length_cons,
      List.range_succ_eq_map, List.flatMap_cons, List.getD_cons_zero]
    congr 1
    have : (List.map Nat.succ (List.range tl.length)).flatMap
        (fun i => f ((r :: tl).getD i [])) = ((List.map Nat.succ
          (List.range tl.length)).map
            (fun i => f ((r :: tl).getD i []))).flatten := by
      rw [List.flatMap_def]
    rw [this, List.map_map]
    have hcongr : (List.range tl.length).map
          ((fun i => f ((r :: tl).getD i [])) ∘ Nat.succ)
        = (List.range tl.length).map (fun i => f (tl.getD i [])) := by
      apply List.map_congr_left
      intro j _
      simp only [Function.comp_apply, List.getD_cons_succ]
    rw [hcongr, ih, List.flatMap_def]

theorem row_lengths_replicate {α : Type} (g : List (List α)) (n w : Nat)
    (hlen : g.length = n) (hrow : ∀ row ∈ g, row.length = w) :
    g.map List.length = List.replicate n w := by
  have := List.eq_replicate_of_mem (l := g.map List.length) (a := w) (by
    intro b hb
    obtain ⟨row, hrowmem, rfl⟩ := List.mem_map.mp hb
    exact hrow row hrowmem)
  rwa [List.length_map, hlen] at this

theorem constIm_wellSized : WellSized constIm := by
  intro w h
  constructor
  · simp [constIm]
  · intro row hrow
    rw [(List.mem_replicate.mp hrow).2]
    simp

/-! ## Claims C3 and C10 -/

/-- Claim C3, counterexample: on the image whose `(2, 1)` resize is the
single row `[0, 5]` (left pixel darker), `dhash` with `S = 1` emits the
bit `1` (right > left) while the spec's rule "1 if left > right" emits
`0`; the code's comparison is the reverse of the claimed one. -/
theorem C3_dhash_bit_rule_counterexample :
    dhash stepIm 1 = 1 ∧ dhashSpec stepIm 1 = 0 ∧
    dhash stepIm 1 ≠ dhashSpec stepIm 1 := by
  decide

/-- Claim C3, amended: `dhash` resizes to `(S+1)×S` and emits, for each
adjacent horizontal pixel pair, the bit `1` iff the RIGHT pixel's
intensity is strictly greater than the LEFT pixel's, the `S²` bits packed
row-major (the spec's left/right comparison is reversed). -/
theorem C3_dhash_bit_rule_amended (im : Resizable) (hws : WellSized im)
    (size : Nat) : dhash im size = dhashSpecFixed im size := by
  obtain ⟨hlen, hrow⟩ := hws (size + 1) size
  show packBits ((List.map rowDiffBits (im (size + 1, size))).flatten)
    = packBits ((List.range size).flatMap (fun i => (List.range size).map
        (fun j => decide (((im (size + 1, size)).getD i []).getD j 0
          < ((im (size + 1, size)).getD i []).getD (j + 1) 0))))
  congr 1
  rw [map_flatten_eq_range_flatMap rowDiffBits (im (size + 1, size)), hlen]
  rw [List.flatMap_def, List.flatMap_def]
  congr 1
  apply List.map_congr_left
  intro i hi
  have himem : i < size := List.mem_range.mp hi
  rw [rowDiffBits_eq_range]
  have hrl : ((im (size + 1, size)).getD i []).length = size + 1 :=
    hrow _ (getD_mem_of_lt [] _ i (by rw [hlen]; exact himem))
  rw [hrl, Nat.add_sub_cancel]

/-- Witness for the amended C3 at the all-black image and the default
size 8. -/
theorem C3_dhash_bit_rule_amended_witness :
    dhash constIm 8 = dhashSpecFixed constIm 8 :=
  C3_dhash_bit_rule_amended constIm constIm_wellSized 8

/-- Claim C10: every fingerprint fits its declared width — `ahash` and
`dhash` with size `S` return a natural number below `2 ^ (S²)`, and a
successful `phash` with reduced block `R` returns one below `2 ^ (R²)`,
whatever the DCT primitive computes. -/
theorem C10_fingerprint_width_bound (im : Resizable) (hws : WellSized im)
    (S R sz : Nat) (dct2d : Grey → Grey) (v : Nat) :
    ahash im S < 2 ^ (S * S) ∧ dhash im S < 2 ^ (S * S) ∧
    (phash true dct2d im sz R = .ok v → v < 2 ^ (R * R)) := by
  refine ⟨?_, ?_, ?_⟩
  · obtain ⟨hlen, hrow⟩ := hws S S
    have hb := packBits_lt ((im (S, S)).flatten.map
      (fun x => decide (meanQ (im (S, S)) < x)))
    have hlenb : ((im (S, S)).flatten.map
        (fun x => decide (meanQ (im (S, S)) < x))).length = S * S := by
      rw [List.length_map, List.length_flatten,
        row_lengths_replicate _ S S hlen hrow, List.sum_replicate, smul_eq_mul]
    rw [hlenb] at hb
    exact hb
  · obtain ⟨hlen, hrow⟩ := hws (S + 1) S
    have hrl : ∀ row ∈ (im (S + 1, S)).map rowDiffBits, row.length = S := by
      intro row hrow2
      obtain ⟨r, hr, rfl⟩ := List.mem_map.mp hrow2
      have h1 : r.length = S + 1 := hrow r hr
      show ((r.zip r.tail).map _).length = S
      rw [List.length_map, List.length_zip, List.length_tail, h1,
        Nat.add_sub_cancel]
      exact min_eq_right (Nat.le_succ S)
    have hb := packBits_lt (((im (S + 1, S)).map rowDiffBits).flatten)
    have hlenb : ((((im (S + 1, S)).map rowDiffBits)).flatten).length = S * S := by
      rw [List.length_flatten, row_lengths_replicate _ S S
        (by rw [List.length_map, hlen]) hrl, List.sum_replicate, smul_eq_mul]
    rw [hlenb] at hb
    exact hb
  · intro hok
    have hval : Except.ok (ε := String)
        (packBits ((truncateGrid R (dct2d (im (sz, sz)))).flatten.map
          (fun x => decide (meanQ (truncateGrid R (dct2d (im (sz, sz)))) < x))))
        = .ok v := hok
    have hv : packBits ((truncateGrid R (dct2d (im (sz, sz)))).flatten.map
        (fun x => decide (meanQ (truncateGrid R (dct2d (im (sz, sz)))) < x))) = v := by
      injection hval
    have hlenb : ((truncateGrid R (dct2d (im (sz, sz)))).flatten.map
        (fun x => decide (meanQ (truncateGrid R (dct2d (im (sz, sz)))) < x))).length
          ≤ R * R := by
      rw [List.length_map, List.length_flatten]
      have hbound : ∀ x ∈ ((truncateGrid R (dct2d (im (sz, sz)))).map
          List.length), x ≤ R := by
        intro x hx
        obtain ⟨row, hrowm, rfl⟩ := List.mem_map.mp hx
        obtain ⟨r0, _, rfl⟩ := List.mem_map.mp hrowm
        rw [List.length_take]
        exact min_le_left R r0.length
      have hsum := List.sum_le_card_nsmul _ R hbound
      rw [smul_eq_mul, List.length_map] at hsum
      have hcard : (truncateGrid R (dct2d (im (sz, sz)))).length ≤ R := by
        show ((((dct2d (im (sz, sz))).take R)).map (List.take R)).length ≤ R
        rw [List.length_map, List.length_take]
        exact min_le_left R _
      calc ((truncateGrid R (dct2d (im (sz, sz)))).map List.length).sum
          ≤ (truncateGrid R (dct2d (im (sz, sz)))).length * R := hsum
        _ ≤ R * R := Nat.mul_le_mul_right R hcard
    have hb := packBits_lt ((truncateGrid R (dct2d (im (sz, sz)))).flatten.map
      (fun x => decide (meanQ (truncateGrid R (dct2d (im (sz, sz)))) < x)))
    rw [hv] at hb
    exact lt_of_lt_of_le hb (Nat.pow_le_pow_right (by omega) hlenb)

set_option maxRecDepth 40000 in
/-- Witness for C10 at the all-black image: both 8×8 hashes are below
`2 ^ 64` and the frequency hash evaluates to `.ok 0` (below `2 ^ 64`)
with the identity in place of the DCT. -/
theorem C10_fingerprint_width_bound_witness :
    ahash constIm 8 < 2 ^ (8 * 8) ∧ dhash constIm 8 < 2 ^ (8 * 8) ∧
    (0 : Nat) < 2 ^ (8 * 8) := by
  have h := C10_fingerprint_width_bound constIm constIm_wellSized 8 8 32 id 0
  have hgrid : truncateGrid 8 (to_grey constIm 32 32)
      = List.replicate 8 (List.replicate 8 (0 : ℚ)) := by decide
  have hmean : meanQ (List.replicate 8 (List.replicate 8 (0 : ℚ))) = 0 := by
    simp [meanQ, cellCount, List.map_replicate, List.sum_replicate]
  have hphash : phash true id constIm 32 8
      = Except.ok (packBits ((truncateGrid 8 (to_grey constIm 32 32)).flatten.map
          (fun x => decide (meanQ (truncateGrid 8 (to_grey constIm 32 32)) < x)))) :=
    rfl
  have hzero : packBits ((truncateGrid 8 (to_grey constIm 32 32)).flatten.map
      (fun x => decide (meanQ (truncateGrid 8 (to_grey constIm 32 32)) < x))) = 0 := by
    rw [hgrid, hmean]
    decide
  exact ⟨h.1, h.2.1, h.2.2 (by rw [hphash, hzero])⟩

/-- Claim C6, counterexample: near-duplicate grouping is sensitive to
completion order.  With hashes `0, 1, 3` and threshold 1, the order
`a, b, c` yields the group `{a, b}` while the reversed order yields
`{c, b}` — permuting the completion order changes which members share a
group, so determinism "regardless of completion order" fails for
near-duplicate grouping. -/
theorem C6_determinism_counterexample :
    ([(("a" : String), (0 : Nat)), ("b", 1), ("c", 3)]).Perm
      [("c", 3), ("b", 1), ("a", 0)] ∧
    computePerceptualClusters [("a", 0), ("b", 1), ("c", 3)] 1 none
      = [["a", "b"]] ∧
    computePerceptualClusters [("c", 3), ("b", 1), ("a", 0)] 1 none
      = [["c", "b"]] ∧
    ¬ (∀ g1 ∈ computePerceptualClusters [("a", 0), ("b", 1), ("c", 3)] 1 none,
        ∃ g2 ∈ computePerceptualClusters [("c", 3), ("b", 1), ("a", 0)] 1 none,
          (∀ x ∈ g1, x ∈ g2) ∧ (∀ x ∈ g2, x ∈ g1)) := by
  refine ⟨by decide, by decide, by decide, by decide⟩

/-- Claim C6, amended: determinism under permuted completion order holds
for exact grouping — permuting the hash results permutes each digest's
path list but preserves the grouped digests and their member sets; for
near-duplicate grouping it holds only for identical completion order (the
clustering is a pure function of the ordered entry list), not across
different completion orders. -/
theorem C6_determinism_amended
    (results results' : List (Option (String × String)))
    (hperm : results.Perm results') (d : String) (ps : List String)
    (hmem : (d, ps) ∈ (compute_sha1_map results none).1) :
    (d, pathsOf results' d) ∈ (compute_sha1_map results' none).1 ∧
    ps.Perm (pathsOf results' d) := by
  obtain ⟨hd, hps, hlen⟩ := (sha1_out_char results d ps).mp hmem
  have hp : (pathsOf results d).Perm (pathsOf results' d) :=
    List.Perm.filterMap _ hperm
  constructor
  · apply (sha1_out_char results' d _).mpr
    refine ⟨hd, rfl, ?_⟩
    rw [← hp.length_eq, ← hps]
    exact hlen
  · rw [hps]
    exact hp

/-- Witness for the amended C6 at a two-result digest and its reversed
completion order. -/
theorem C6_determinism_amended_witness :
    ("d", pathsOf [some ("d", "p2"), some ("d", "p1")] "d")
      ∈ (compute_sha1_map [some ("d", "p2"), some ("d", "p1")] none).1 ∧
    (["p1", "p2"] : List String).Perm
      (pathsOf [some ("d", "p2"), some ("d", "p1")] "d") :=
  C6_determinism_amended [some ("d", "p1"), some ("d", "p2")]
    [some ("d", "p2"), some ("d", "p1")] (by decide) "d" ["p1", "p2"]
    (by decide)

/-- Claim C7, counterexample: raising the threshold can remove a pairwise
membership.  With hashes `0, 3, 7` in this order, at `T = 1` the paths
`p1, p2` share a group (anchored at `p1`), but at `T = 2` the first
anchor `p0` absorbs `p1`, leaving `p2` alone — `p1` and `p2` no longer
share any group. -/
theorem C7_threshold_monotonicity_counterexample :
    (1 : Nat) ≤ 2 ∧
    sharesGroup (computePerceptualClusters
      [("p0", 0), ("p1", 3), ("p2", 7)] 1 none) "p1" "p2" ∧
    ¬ sharesGroup (computePerceptualClusters
      [("p0", 0), ("p1", 3), ("p2", 7)] 2 none) "p1" "p2" := by
  refine ⟨by omega, ?_, ?_⟩
  · unfold sharesGroup
    decide
  · unfold sharesGroup
    decide

/-- Claim C7, amended: membership against a fixed anchor is monotone in
the threshold, so the cluster opened at the first entry only grows when
`T` increases — whenever the first entry's cluster qualifies at `T1`, it
is the head group at both thresholds and every member it has at `T1` it
keeps at `T2 ≥ T1`; for later anchors, raising the threshold can
reassign entries to earlier clusters and remove pairwise memberships. -/
theorem C7_threshold_monotonicity_amended (e : String × Nat)
    (rest : List (String × Nat)) (T1 T2 : Nat) (h12 : T1 ≤ T2)
    (h2 : 2 ≤ (anchorCluster e rest T1).length) :
    (computePerceptualClusters (e :: rest) T1 none).head?
      = some (anchorCluster e rest T1) ∧
    (computePerceptualClusters (e :: rest) T2 none).head?
      = some (anchorCluster e rest T2) ∧
    ∀ x ∈ anchorCluster e rest T1, x ∈ anchorCluster e rest T2 := by
  have hsub : (rest.filter (fun x => decide (hamming e.2 x.2 ≤ T1))).Sublist
      (rest.filter (fun x => decide (hamming e.2 x.2 ≤ T2))) := by
    apply List.monotone_filter_right
    intro a ha
    simp only [decide_eq_true_eq] at ha ⊢
    omega
  have hlen2 : 2 ≤ (anchorCluster e rest T2).length := by
    have h1 := hsub.length_le
    unfold anchorCluster at h2 ⊢
    simp only [List.length_cons, List.length_map] at h2 ⊢
    omega
  have hhead : ∀ T, 2 ≤ (anchorCluster e rest T).length →
      (computePerceptualClusters (e :: rest) T none).head?
        = some (anchorCluster e rest T) := by
    intro T hT
    rw [computePerceptualClusters_eq_anchorLinkage]
    obtain ⟨p, h⟩ := e
    have heq : anchorLinkage T ((p, h) :: rest)
        = (if 1 < (p :: (rest.filter
              (fun x => decide (hamming h x.2 ≤ T))).map Prod.fst).length
            then [p :: (rest.filter
              (fun x => decide (hamming h x.2 ≤ T))).map Prod.fst] else [])
          ++ anchorLinkage T
              (rest.filter (fun x => !(decide (hamming h x.2 ≤ T)))) := by
      simp only [anchorLinkage]
    rw [heq]
    have hT1 : 1 < (p :: (rest.filter
        (fun x => decide (hamming h x.2 ≤ T))).map Prod.fst).length := by
      unfold anchorCluster at hT
      simp only [List.length_cons, List.length_map] at hT ⊢
      omega
    rw [if_pos hT1, List.singleton_append, List.head?_cons]
    rfl
  refine ⟨hhead T1 h2, hhead T2 hlen2, ?_⟩
  intro x hx
  unfold anchorCluster at hx ⊢
  rcases List.mem_cons.mp hx with rfl | hx2
  · exact List.mem_cons_self _ _
  · apply List.mem_cons_of_mem
    obtain ⟨a, haf, rfl⟩ := List.mem_map.mp hx2
    obtain ⟨har, hac⟩ := List.mem_filter.mp haf
    apply List.mem_map.mpr
    refine ⟨a, List.mem_filter.mpr ⟨har, ?_⟩, rfl⟩
    simp only [decide_eq_true_eq] at hac ⊢
    omega

/-- Witness for the amended C7: with hashes `0` and `1`, the first
cluster qualifies at `T1 = 1` and keeps its member at `T2 = 2`. -/
theorem C7_threshold_monotonicity_amended_witness :
    (computePerceptualClusters [("a", 0), ("b", 1)] 1 none).head?
      = some (anchorCluster ("a", 0) [("b", 1)] 1) ∧
    (computePerceptualClusters [("a", 0), ("b", 1)] 2 none).head?
      = some (anchorCluster ("a", 0) [("b", 1)] 2) ∧
    "b" ∈ anchorCluster ("a", 0) [("b", 1)] 2 := by
  have h := C7_threshold_monotonicity_amended ("a", 0) [("b", 1)] 1 2
    (by omega) (by decide)
  exact ⟨h.1, h.2.1, h.2.2 "b" (by decide)⟩

/-- Claim C8: within one run the dispatcher emits a progress event after
every 50th completion and unconditionally on the final completion,
carrying cumulative done, submitted total and the phase name (exact
stream characterization for non-cancelled runs of both entry points, with
the extra initial `done = 0` event of the perceptual phase); across any
run — cancelled or not — the done values are non-decreasing; and on the
final event of a non-cancelled run done equals total. -/
theorem C8_progress_reporting
    (results : List (Option (String × String))) (cancelFrom : Option Nat)
    (hasDCT : Bool) (dct2d : Grey → Grey) (method : String)
    (files : List ImageFile) (cancelObs : List Bool) (threshold : Nat)
    (cancelFromHash cancelFromCluster : Option Nat) :
    progressList (compute_sha1_map results none).2
      = (expectedTicks results.length).map
          (fun d => (d, results.length, "sha1")) ∧
    (0 < results.length →
      (progressList (compute_sha1_map results none).2).getLast?
        = some (results.length, results.length, "sha1")) ∧
    (dones (compute_sha1_map results cancelFrom).2).Pairwise (· ≤ ·) ∧
    progressList (compute_perceptual_groups hasDCT dct2d method files
        (List.replicate files.length false) threshold none none).2
      = (0, files.length, method) ::
          (expectedTicks files.length).map (fun d => (d, files.length, method)) ∧
    (progressList (compute_perceptual_groups hasDCT dct2d method files
        (List.replicate files.length false) threshold none none).2).getLast?
      = some (files.length, files.length, method) ∧
    (dones (compute_perceptual_groups hasDCT dct2d method files cancelObs
        threshold cancelFromHash cancelFromCluster).2).Pairwise (· ≤ ·) := by
  have hc1 : progressList (compute_sha1_map results none).2
      = (expectedTicks results.length).map
          (fun d => (d, results.length, "sha1")) := by
    have hs1 : ∃ n, (compute_sha1_map results none).2
        = (dispatchLoop "sha1" results.length none sha1Handle
            results 0 [] []).2 ++ [Signal.doneSig n] := ⟨_, rfl⟩
    obtain ⟨n1, hs1⟩ := hs1
    rw [hs1, dispatchLoop_snd_none, List.nil_append, progressList_append,
      show progressList [Signal.doneSig n1] = [] from rfl, List.append_nil,
      tickEvents_full, progressList_map_progress]
  have hlenout : (List.zipWith (fun f c => ph_for hasDCT dct2d method f c)
      files (List.replicate files.length false)).length = files.length := by
    rw [List.length_zipWith, List.length_replicate]
    exact min_self _
  have hc4 : progressList (compute_perceptual_groups hasDCT dct2d method files
        (List.replicate files.length false) threshold none none).2
      = (0, files.length, method) ::
          (expectedTicks files.length).map
            (fun d => (d, files.length, method)) := by
    have hs4 : ∃ n, (compute_perceptual_groups hasDCT dct2d method files
        (List.replicate files.length false) threshold none none).2
          = (dispatchLoop method files.length none entryHandle
              (List.zipWith (fun f c => ph_for hasDCT dct2d method f c)
                files (List.replicate files.length false)) 0 []
              [Signal.progress 0 files.length method]).2
            ++ [Signal.doneSig n] := ⟨_, rfl⟩
    obtain ⟨n4, hs4⟩ := hs4
    rw [hs4, dispatchLoop_snd_none, hlenout, progressList_append,
      progressList_append,
      show progressList [Signal.doneSig n4] = [] from rfl, List.append_nil,
      tickEvents_full, progressList_map_progress]
    rfl
  refine ⟨hc1, ?_, ?_, hc4, ?_, ?_⟩
  · intro hpos
    rw [hc1, List.getLast?_map, expectedTicks_getLast _ hpos]
    rfl
  · have hs3 : ∃ n, (compute_sha1_map results cancelFrom).2
        = (dispatchLoop "sha1" results.length cancelFrom sha1Handle
            results 0 [] []).2 ++ [Signal.doneSig n] := ⟨_, rfl⟩
    obtain ⟨n3, hs3⟩ := hs3
    rw [hs3, dones_append, show dones [Signal.doneSig n3] = [] from rfl,
      List.append_nil]
    apply dispatchLoop_dones_mono
    · exact List.Pairwise.nil
    · intro x hx
      exact absurd hx (List.not_mem_nil x)
  · rw [hc4]
    by_cases hpos : 0 < files.length
    · obtain ⟨X, hX⟩ := expectedTicks_concat _ hpos
      rw [hX, List.map_append, ← List.cons_append]
      exact List.getLast?_concat _
    · have h0 : files.length = 0 := by omega
      rw [h0, show expectedTicks 0 = [] from rfl]
      rfl
  · have hs6 : ∃ n, (compute_perceptual_groups hasDCT dct2d method files
        cancelObs threshold cancelFromHash cancelFromCluster).2
          = (dispatchLoop method files.length cancelFromHash entryHandle
              (List.zipWith (fun f c => ph_for hasDCT dct2d method f c)
                files cancelObs) 0 []
              [Signal.progress 0 files.length method]).2
            ++ [Signal.doneSig n] := ⟨_, rfl⟩
    obtain ⟨n6, hs6⟩ := hs6
    rw [hs6, dones_append, show dones [Signal.doneSig n6] = [] from rfl,
      List.append_nil]
    apply dispatchLoop_dones_mono
    · show ([0] : List Nat).Pairwise (· ≤ ·)
      exact List.pairwise_singleton _ _
    · intro x hx
      have : x = 0 := by
        simpa [dones, progressList] using hx
      omega

/-- Witness for C8 at a one-item run: the single progress event is
`(1, 1, "sha1")` and it is the final event. -/
theorem C8_progress_reporting_witness :
    0 < ([some (("h" : String), ("p" : String))] : List (Option (String × String))).length ∧
    (progressList (compute_sha1_map [some ("h", "p")] none).2).getLast?
      = some (1, 1, "sha1") := by
  have h := C8_progress_reporting [some ("h", "p")] none true id "ahash"
    [] [] 5 none none
  exact ⟨by decide, h.2.1 (by decide)⟩

end MediaBrowser
